import Mathlib

/-!
# Verification of `skippable_map` (`src/lib.rs`)

Shallow embedding of the `skippable_map` Rust crate: a wrapper
`SkippableMap<K, V>` around `HashMap<K, V>` whose `Deserialize`
implementation skips entries that do not decode to a `(K, V)` pair.

The value-level model of `HashMap<K, V>` is an association list with at
most one binding per key; `hmInsert` mirrors `HashMap::insert`
(overwrite-on-duplicate) and `hmFind` mirrors lookup.  The entry source
handed to `SkippableMapVisitor::visit_map` by serde is modelled as the
sequence of outcomes of its `next_entry` calls: `Ok(Some((k, v)))`,
`Err(e)` or `Ok(None)`.
-/

namespace SkippableMapSpec

/-- Outcome of one `MapAccess::next_entry` call as seen by `visit_map`
(`src/lib.rs` line 103): a successfully decoded entry `Ok(Some((k, v)))`,
a decode error `Err(e)`, or end of the map `Ok(None)`. -/
inductive EntryResult (K V E : Type) where
  | entry : K → V → EntryResult K V E
  | err : E → EntryResult K V E
  | endOfData : EntryResult K V E
deriving DecidableEq

variable {K V E : Type}

/-- Model of `HashMap::insert` (`src/lib.rs` line 107) on the
association-list model: overwrite the binding if the key is already
present, otherwise append a new binding. -/
def hmInsert [DecidableEq K] (m : List (K × V)) (k : K) (v : V) : List (K × V) :=
  if m.any (fun p => decide (p.1 = k)) then
    m.map (fun p => if p.1 = k then (k, v) else p)
  else
    m ++ [(k, v)]

/-- Model of `HashMap` lookup: the value bound to key `k` in `m`, if any. -/
def hmFind [DecidableEq K] : List (K × V) → K → Option V
  | [], _ => none
  | p :: rest, k => if p.1 = k then some p.2 else hmFind rest k

/-- Model of `HashMap::with_capacity` (`src/lib.rs` line 99): capacity is a
performance hint only and is not part of a `HashMap`'s value, so the result
is the empty map whatever capacity is requested. -/
def hashMapWithCapacity (capacity : Nat) : List (K × V) :=
  []

/-- `SkippableMap<K, V>` (`src/lib.rs` line 60): a newtype wrapper holding
one `HashMap<K, V>` (the public tuple field `.0`, here `val`). -/
structure SkippableMap (K V : Type) where
  val : List (K × V)
deriving DecidableEq

/-- `SkippableMap::inner` (`src/lib.rs` lines 63-65): consumes the wrapper
and returns `self.0`. -/
def SkippableMap.inner (m : SkippableMap K V) : List (K × V) :=
  m.val

/-- `impl From<SkippableMap<K, V>> for HashMap<K, V>` (`src/lib.rs`
lines 120-124): returns `value.0`. -/
def hashMapFromSkippableMap (m : SkippableMap K V) : List (K × V) :=
  m.val

/-- `impl AsRef<HashMap<K, V>>` (`src/lib.rs` lines 126-130): borrows
`self.0` (ownership is not modelled, only the mapping value). -/
def SkippableMap.asRef (m : SkippableMap K V) : List (K × V) :=
  m.val

/-- `#[derive(Default)]` on `SkippableMap` (`src/lib.rs` line 58): the
derived default wraps `HashMap::default()`, the empty map. -/
def SkippableMap.default : SkippableMap K V :=
  ⟨[]⟩

/-- `#[derive(Serialize)]` with `#[serde(transparent)]` (`src/lib.rs`
lines 58-59): the derived implementation delegates serialization entirely
to the single inner field, for any serializer `ser` of the underlying
`HashMap` into any output representation `S`. -/
def serializeSkippableMap {S : Type} (ser : List (K × V) → S) (m : SkippableMap K V) : S :=
  ser m.val

/-- `SkippableMapVisitor::expecting` (`src/lib.rs` lines 86-93): the string
written to the formatter, with the type names of `K` and `V` substituted
for the two `{}` placeholders. -/
def expecting (kName vName : String) : String :=
  "a data structure which contains some mappings from " ++ kName ++ " to " ++ vName

/-- The `loop` of `SkippableMapVisitor::visit_map` (`src/lib.rs`
lines 102-116), run against the finite list `rs` of the source's
`next_entry` outcomes with accumulator `map`: a decoded entry is inserted,
an error outcome is skipped (`Err(_) => {}`), and end-of-data returns
`Ok` of the accumulated map.  `none` models the case where the listed
outcomes are exhausted without end-of-data: the loop has not returned. -/
def visitMapLoop [DecidableEq K] (map : List (K × V)) :
    List (EntryResult K V E) → Option (Except E (List (K × V)))
  | [] => none
  | EntryResult.entry k v :: rest => visitMapLoop (hmInsert map k v) rest
  | EntryResult.err _ :: rest => visitMapLoop map rest
  | EntryResult.endOfData :: _ => some (Except.ok map)

/-- `SkippableMapVisitor::visit_map` (`src/lib.rs` lines 95-117): start
from `HashMap::with_capacity(access.size_hint().unwrap_or(0))` and run the
loop; on end-of-data the accumulated map is returned wrapped as
`Ok(SkippableMap(map))`. -/
def visit_map [DecidableEq K] (sizeHint : Option Nat)
    (rs : List (EntryResult K V E)) : Option (Except E (SkippableMap K V)) :=
  (visitMapLoop (hashMapWithCapacity (sizeHint.getD 0)) rs).map
    (fun r => r.map SkippableMap.mk)

/-- Modelled from the spec: a strict (non-tolerant) map decode of the same
entry source, as used by P5 for comparison.  It differs from
`visitMapLoop` only on an error outcome, which it propagates as the decode
failure instead of skipping. -/
def strictVisitMapLoop [DecidableEq K] (map : List (K × V)) :
    List (EntryResult K V E) → Option (Except E (List (K × V)))
  | [] => none
  | EntryResult.entry k v :: rest => strictVisitMapLoop (hmInsert map k v) rest
  | EntryResult.err e :: _ => some (Except.error e)
  | EntryResult.endOfData :: _ => some (Except.ok map)

/-- Modelled from the spec: the strict decode entry point, mirroring
`visit_map` but with the error-propagating loop. -/
def strict_visit_map [DecidableEq K] (sizeHint : Option Nat)
    (rs : List (EntryResult K V E)) : Option (Except E (SkippableMap K V)) :=
  (strictVisitMapLoop (hashMapWithCapacity (sizeHint.getD 0)) rs).map
    (fun r => r.map SkippableMap.mk)

/-- The successfully decoded source entries, in order, up to the first
end-of-data outcome; `none` when no end-of-data outcome occurs. -/
def entriesBeforeEnd : List (EntryResult K V E) → Option (List (K × V))
  | [] => none
  | EntryResult.entry k v :: rest => (entriesBeforeEnd rest).map (fun l => (k, v) :: l)
  | EntryResult.err _ :: rest => entriesBeforeEnd rest
  | EntryResult.endOfData :: _ => some []

/-- The value of the last entry with key `k` in the entry list `l`
(the last-write-wins reference value). -/
def lastVal [DecidableEq K] : List (K × V) → K → Option V
  | [], _ => none
  | p :: rest, k =>
    match lastVal rest k with
    | some v => some v
    | none => if p.1 = k then some p.2 else none

/-- `true` when every outcome up to the first end-of-data is a
successfully decoded entry (the "fully-homogeneous input" of P5). -/
def noEntryErrors : List (EntryResult K V E) → Bool
  | [] => true
  | EntryResult.entry _ _ :: rest => noEntryErrors rest
  | EntryResult.err _ :: _ => false
  | EntryResult.endOfData :: _ => true

/-- The `visit_map` loop run against an infinite source `src` (the value
`src n` is the outcome of the `(n + 1)`-st `next_entry` call), currently
about to make call number `pos` with accumulator `map`, allowed at most
`fuel` further iterations; `none` means the loop has not returned within
`fuel` iterations. -/
def visitMapFuel [DecidableEq K] (src : Nat → EntryResult K V E) :
    List (K × V) → Nat → Nat → Option (Except E (List (K × V)))
  | _, _, 0 => none
  | map, pos, fuel + 1 =>
    match src pos with
    | EntryResult.entry k v => visitMapFuel src (hmInsert map k v) (pos + 1) fuel
    | EntryResult.err _ => visitMapFuel src map (pos + 1) fuel
    | EntryResult.endOfData => some (Except.ok map)

/-! ## Helper lemmas about the `HashMap` model -/

theorem hmFind_map_replace_ne [DecidableEq K] (m : List (K × V)) (k k' : K) (v : V)
    (h : k' ≠ k) :
    hmFind (m.map (fun p => if p.1 = k then (k, v) else p)) k' = hmFind m k' := by
  induction m with
  | nil => rfl
  | cons p t ih =>
    by_cases hpk : p.1 = k
    · simp [hmFind, hpk, Ne.symm h, ih]
    · simp only [List.map_cons, if_neg hpk, hmFind, ih]

theorem hmInsert_cons_ne [DecidableEq K] (p : K × V) (t : List (K × V)) (k : K) (v : V)
    (h : p.1 ≠ k) :
    hmInsert (p :: t) k v = p :: hmInsert t k v := by
  by_cases ht : t.any (fun q => decide (q.1 = k))
  · simp [hmInsert, h, ht]
  · simp [hmInsert, h, ht]

theorem hmInsert_cons_eq [DecidableEq K] (p : K × V) (t : List (K × V)) (k : K) (v : V)
    (h : p.1 = k) :
    hmInsert (p :: t) k v = (k, v) :: t.map (fun q => if q.1 = k then (k, v) else q) := by
  simp [hmInsert, h]

theorem hmFind_hmInsert [DecidableEq K] (m : List (K × V)) (k k' : K) (v : V) :
    hmFind (hmInsert m k v) k' = if k' = k then some v else hmFind m k' := by
  induction m with
  | nil =>
    by_cases hk : k' = k
    · simp [hmInsert, hmFind, hk]
    · simp [hmInsert, hmFind, hk, Ne.symm hk]
  | cons p t ih =>
    by_cases hpk : p.1 = k
    · rw [hmInsert_cons_eq p t k v hpk]
      by_cases hk : k' = k
      · simp [hmFind, hk]
      · rw [hmFind]
        simp only [if_neg (fun hh : k = k' => hk hh.symm)]
        rw [hmFind_map_replace_ne t k k' v hk, if_neg hk, hmFind, if_neg (fun hh : p.1 = k' => hk (hh.symm.trans hpk))]
    · rw [hmInsert_cons_ne p t k v hpk]
      by_cases hpk' : p.1 = k'
      · have hk : k' ≠ k := fun hh => hpk (hh ▸ hpk')
        simp [hmFind, hpk', hk]
      · simp [hmFind, hpk', ih]

theorem hmFind_foldl_insert [DecidableEq K] (l : List (K × V)) (map : List (K × V)) (k : K) :
    hmFind (l.foldl (fun m p => hmInsert m p.1 p.2) map) k =
      match lastVal l k with
      | some v => some v
      | none => hmFind map k := by
  induction l generalizing map with
  | nil => simp [lastVal]
  | cons p t ih =>
    rw [List.foldl_cons, ih]
    cases h : lastVal t k with
    | some v => simp [lastVal, h]
    | none =>
      rw [hmFind_hmInsert]
      have hl : lastVal (p :: t) k = if p.1 = k then some p.2 else none := by
        simp only [lastVal, h]
      rw [hl]
      by_cases hk : p.1 = k
      · rw [if_pos hk, if_pos hk.symm]
      · rw [if_neg hk, if_neg (fun hh : k = p.1 => hk hh.symm)]

/-! ## Helper lemmas about the decode loop -/

theorem visitMapLoop_eq [DecidableEq K] (rs : List (EntryResult K V E)) (map : List (K × V)) :
    visitMapLoop map rs =
      (entriesBeforeEnd rs).map
        (fun l => Except.ok (l.foldl (fun m p => hmInsert m p.1 p.2) map)) := by
  induction rs generalizing map with
  | nil => rfl
  | cons r rest ih =>
    cases r with
    | entry k v =>
      rw [visitMapLoop, entriesBeforeEnd, ih, Option.map_map]
      rfl
    | err e => rw [visitMapLoop, entriesBeforeEnd, ih]
    | endOfData => rfl

theorem visitMapLoop_ok [DecidableEq K] (rs : List (EntryResult K V E)) (map : List (K × V))
    (r : Except E (List (K × V))) (h : visitMapLoop map rs = some r) :
    ∃ m, r = Except.ok m := by
  induction rs generalizing map with
  | nil => exact absurd h (by simp [visitMapLoop])
  | cons x rest ih =>
    cases x with
    | entry k v => exact ih (hmInsert map k v) h
    | err e => exact ih map h
    | endOfData =>
      rw [visitMapLoop] at h
      exact ⟨map, (Option.some.inj h).symm⟩

theorem visitMapLoop_end_mem [DecidableEq K] (rs : List (EntryResult K V E))
    (map : List (K × V)) (r : Except E (List (K × V))) (h : visitMapLoop map rs = some r) :
    EntryResult.endOfData ∈ rs := by
  induction rs generalizing map with
  | nil => exact absurd h (by simp [visitMapLoop])
  | cons x rest ih =>
    cases x with
    | entry k v => exact List.mem_cons_of_mem _ (ih (hmInsert map k v) h)
    | err e => exact List.mem_cons_of_mem _ (ih map h)
    | endOfData => exact List.mem_cons_self _ _

theorem visitMapLoop_skip_err [DecidableEq K] (rs1 rs2 : List (EntryResult K V E)) (e : E)
    (map : List (K × V)) :
    visitMapLoop map (rs1 ++ EntryResult.err e :: rs2) = visitMapLoop map (rs1 ++ rs2) := by
  induction rs1 generalizing map with
  | nil => rfl
  | cons x t ih =>
    cases x with
    | entry k v => rw [List.cons_append, visitMapLoop, List.cons_append, visitMapLoop, ih]
    | err e2 => rw [List.cons_append, visitMapLoop, List.cons_append, visitMapLoop, ih]
    | endOfData => rfl

theorem visitMapLoop_eq_strict [DecidableEq K] (rs : List (EntryResult K V E))
    (map : List (K × V)) (h : noEntryErrors rs = true) :
    visitMapLoop map rs = strictVisitMapLoop map rs := by
  induction rs generalizing map with
  | nil => rfl
  | cons x rest ih =>
    cases x with
    | entry k v =>
      rw [visitMapLoop, strictVisitMapLoop]
      exact ih (hmInsert map k v) (by simpa [noEntryErrors] using h)
    | err e => exact absurd h (by simp [noEntryErrors])
    | endOfData => rfl

theorem visit_map_ok [DecidableEq K] (sizeHint : Option Nat) (rs : List (EntryResult K V E))
    (r : Except E (SkippableMap K V)) (h : visit_map sizeHint rs = some r) :
    ∃ m, r = Except.ok m := by
  rw [visit_map] at h
  cases h0 : visitMapLoop (E := E) (hashMapWithCapacity ((sizeHint).getD 0)) rs with
  | none => rw [h0] at h; exact absurd h (by simp)
  | some r0 =>
    rw [h0] at h
    obtain ⟨m0, hm⟩ := visitMapLoop_ok rs _ r0 h0
    subst hm
    exact ⟨SkippableMap.mk m0, by simpa [Except.map] using h.symm⟩

theorem visit_map_end_mem [DecidableEq K] (sizeHint : Option Nat)
    (rs : List (EntryResult K V E)) (r : Except E (SkippableMap K V))
    (h : visit_map sizeHint rs = some r) :
    EntryResult.endOfData ∈ rs := by
  rw [visit_map] at h
  cases h0 : visitMapLoop (E := E) (hashMapWithCapacity ((sizeHint).getD 0)) rs with
  | none => rw [h0] at h; exact absurd h (by simp)
  | some r0 => exact visitMapLoop_end_mem rs _ r0 h0

/-! ## Helper lemmas about the fuel-indexed loop -/

theorem visitMapFuel_some_end [DecidableEq K] (src : Nat → EntryResult K V E) :
    ∀ (fuel pos : Nat) (map : List (K × V)) (r : Except E (List (K × V))),
      visitMapFuel src map pos fuel = some r → ∃ n, src n = EntryResult.endOfData := by
  intro fuel
  induction fuel with
  | zero => intro pos map r h; exact absurd h (by simp [visitMapFuel])
  | succ fuel ih =>
    intro pos map r h
    cases hsrc : src pos with
    | entry k v =>
      rw [visitMapFuel, hsrc] at h
      exact ih (pos + 1) (hmInsert map k v) r h
    | err e =>
      rw [visitMapFuel, hsrc] at h
      exact ih (pos + 1) map r h
    | endOfData => exact ⟨pos, hsrc⟩

theorem visitMapFuel_of_end [DecidableEq K] (src : Nat → EntryResult K V E) :
    ∀ (d pos : Nat) (map : List (K × V)), src (pos + d) = EntryResult.endOfData →
      ∃ r, visitMapFuel src map pos (d + 1) = some r := by
  intro d
  induction d with
  | zero =>
    intro pos map h
    exact ⟨Except.ok map, by rw [visitMapFuel, (by simpa using h : src pos = EntryResult.endOfData)]⟩
  | succ d ih =>
    intro pos map h
    have h' : src (pos + 1 + d) = EntryResult.endOfData := by
      rw [show pos + 1 + d = pos + (d + 1) by omega]; exact h
    cases hsrc : src pos with
    | entry k v =>
      obtain ⟨r, hr⟩ := ih (pos + 1) (hmInsert map k v) h'
      exact ⟨r, by rw [visitMapFuel, hsrc]; exact hr⟩
    | err e =>
      obtain ⟨r, hr⟩ := ih (pos + 1) map h'
      exact ⟨r, by rw [visitMapFuel, hsrc]; exact hr⟩
    | endOfData => exact ⟨Except.ok map, by rw [visitMapFuel, hsrc]⟩

/-! ## Claims -/

/-- C1, counterexample: an error reported by `next_entry` — the only channel
through which the source can report a stream-level failure to `visit_map` —
is not propagated: on the outcome sequence `[Err 7, Ok None]` the decode
returns `Ok` of the accumulated (empty) map, not the failure `Err 7`. -/
theorem streamError_not_propagated :
    visit_map (K := Nat) (V := Nat) (E := Nat) none
        [EntryResult.err 7, EntryResult.endOfData] = some (Except.ok ⟨[]⟩) ∧
    ¬ visit_map (K := Nat) (V := Nat) (E := Nat) none
        [EntryResult.err 7, EntryResult.endOfData] = some (Except.error 7) :=
  ⟨rfl, fun h => Except.noConfusion (Option.some.inj h)⟩

/-- C1, amended: `visit_map` cannot distinguish stream-level from
entry-level errors: every error outcome of `next_entry` is swallowed by the
`Err(_) => {}` arm and the loop continues; whenever `visit_map` returns, its
result is `Ok` of the accumulated map, never an error, so there is no exit
to a FAILED state. -/
theorem streamError_swallowed [DecidableEq K] (sizeHint : Option Nat) (e : E)
    (rs : List (EntryResult K V E)) :
    visit_map sizeHint (EntryResult.err e :: rs) = visit_map sizeHint rs ∧
    ∀ r, visit_map sizeHint (EntryResult.err e :: rs) = some r → ∃ m, r = Except.ok m :=
  ⟨rfl, fun r h => visit_map_ok sizeHint _ r h⟩

/-- Witness for `streamError_swallowed` at a concrete input. -/
theorem streamError_swallowed_witness :
    visit_map (K := Nat) (V := Nat) (E := Nat) none
        (EntryResult.err 3 :: [EntryResult.endOfData]) =
      visit_map none [EntryResult.endOfData] ∧
    ∃ m, (Except.ok (SkippableMap.mk ([] : List (Nat × Nat))) :
        Except Nat (SkippableMap Nat Nat)) = Except.ok m :=
  ⟨(streamError_swallowed none 3 [EntryResult.endOfData]).1,
   (streamError_swallowed none 3 [EntryResult.endOfData]).2
     (Except.ok (SkippableMap.mk [])) rfl⟩

/-- C2: when the decode loop runs to end-of-data, the resulting mapping
binds exactly the keys of the successfully decoded source entries, each to
the value of the last entry with that key (last-write-wins). -/
theorem visit_map_exact_lastWriteWins [DecidableEq K] (sizeHint : Option Nat)
    (rs : List (EntryResult K V E)) (m : SkippableMap K V)
    (h : visit_map sizeHint rs = some (Except.ok m)) :
    ∃ l, entriesBeforeEnd rs = some l ∧ ∀ k, hmFind m.val k = lastVal l k := by
  rw [visit_map, visitMapLoop_eq] at h
  cases hl : entriesBeforeEnd (K := K) (V := V) (E := E) rs with
  | none => rw [hl] at h; exact absurd h (by simp)
  | some l =>
    rw [hl] at h
    simp only [Option.map_some', Except.map, Option.some.injEq, Except.ok.injEq] at h
    refine ⟨l, rfl, fun k => ?_⟩
    rw [← h, hmFind_foldl_insert]
    cases lastVal l k with
    | none => rfl
    | some v => rfl

/-- Witness for `visit_map_exact_lastWriteWins` at a concrete input with a
skipped entry and a duplicated key. -/
theorem visit_map_exact_lastWriteWins_witness :
    visit_map (K := Nat) (V := Nat) (E := Nat) (some 5)
        [EntryResult.entry 1 10, EntryResult.err 0, EntryResult.entry 1 20,
          EntryResult.entry 2 30, EntryResult.endOfData] =
      some (Except.ok (SkippableMap.mk [(1, 20), (2, 30)])) ∧
    ∃ l, entriesBeforeEnd (K := Nat) (V := Nat) (E := Nat)
          [EntryResult.entry 1 10, EntryResult.err 0, EntryResult.entry 1 20,
            EntryResult.entry 2 30, EntryResult.endOfData] = some l ∧
        ∀ k, hmFind (SkippableMap.mk [(1, 20), (2, 30)]).val k = lastVal l k :=
  ⟨rfl, visit_map_exact_lastWriteWins (some 5) _ _ rfl⟩

/-- C3: an error outcome of `next_entry` anywhere in the sequence is
discarded — the decode result is the same as if that outcome were absent —
and it is never surfaced: whatever `visit_map` returns is `Ok`. -/
theorem entryError_skipped [DecidableEq K] (sizeHint : Option Nat) (e : E)
    (rs1 rs2 : List (EntryResult K V E)) :
    visit_map sizeHint (rs1 ++ EntryResult.err e :: rs2) =
      visit_map sizeHint (rs1 ++ rs2) ∧
    ∀ r, visit_map sizeHint (rs1 ++ EntryResult.err e :: rs2) = some r →
      ∃ m, r = Except.ok m := by
  constructor
  · rw [visit_map, visit_map, visitMapLoop_skip_err]
  · exact fun r h => visit_map_ok sizeHint _ r h

/-- Witness for `entryError_skipped` at a concrete input. -/
theorem entryError_skipped_witness :
    visit_map (K := Nat) (V := Nat) (E := Nat) (some 1)
        ([EntryResult.entry 1 2] ++ EntryResult.err 9 :: [EntryResult.endOfData]) =
      visit_map (some 1) ([EntryResult.entry 1 2] ++ [EntryResult.endOfData]) ∧
    ∃ m, (Except.ok (SkippableMap.mk [(1, 2)]) :
        Except Nat (SkippableMap Nat Nat)) = Except.ok m :=
  ⟨(entryError_skipped (some 1) 9 [EntryResult.entry 1 2] [EntryResult.endOfData]).1,
   (entryError_skipped (some 1) 9 [EntryResult.entry 1 2] [EntryResult.endOfData]).2
     (Except.ok (SkippableMap.mk [(1, 2)])) rfl⟩

/-- C4: on an input whose entries all decode successfully, the tolerant
decode coincides with the strict (error-propagating) decode, and in
particular the two produced mappings are set-equal. -/
theorem tolerant_eq_strict [DecidableEq K] (sizeHint : Option Nat)
    (rs : List (EntryResult K V E)) (h : noEntryErrors rs = true) :
    visit_map sizeHint rs = strict_visit_map sizeHint rs ∧
    ∀ m, visit_map sizeHint rs = some (Except.ok m) →
      ∃ m', strict_visit_map sizeHint rs = some (Except.ok m') ∧
        ∀ k, hmFind m.val k = hmFind m'.val k := by
  have heq : visit_map (E := E) sizeHint rs = strict_visit_map sizeHint rs := by
    rw [visit_map, strict_visit_map, visitMapLoop_eq_strict rs _ h]
  exact ⟨heq, fun m hm => ⟨m, heq ▸ hm, fun k => rfl⟩⟩

/-- Witness for `tolerant_eq_strict` at a concrete error-free input. -/
theorem tolerant_eq_strict_witness :
    noEntryErrors (K := Nat) (V := Nat) (E := Nat)
        [EntryResult.entry 1 10, EntryResult.entry 1 20, EntryResult.endOfData] = true ∧
    visit_map (K := Nat) (V := Nat) (E := Nat) (some 2)
        [EntryResult.entry 1 10, EntryResult.entry 1 20, EntryResult.endOfData] =
      strict_visit_map (some 2)
        [EntryResult.entry 1 10, EntryResult.entry 1 20, EntryResult.endOfData] :=
  ⟨rfl, (tolerant_eq_strict (some 2)
    [EntryResult.entry 1 10, EntryResult.entry 1 20, EntryResult.endOfData] rfl).1⟩

/-- C5: end-of-data on the first `next_entry` call yields `Ok` of the empty
mapping (whatever the size hint), and end-of-data is the only exit of the
loop: any returned result required an end-of-data outcome in the sequence. -/
theorem empty_input_ok [DecidableEq K] (sizeHint : Option Nat) :
    (∀ rest : List (EntryResult K V E),
      visit_map sizeHint (EntryResult.endOfData :: rest) = some (Except.ok ⟨[]⟩)) ∧
    ∀ (rs : List (EntryResult K V E)) (r : Except E (SkippableMap K V)),
      visit_map sizeHint rs = some r → EntryResult.endOfData ∈ rs :=
  ⟨fun _ => rfl, fun rs r h => visit_map_end_mem sizeHint rs r h⟩

/-- Witness for `empty_input_ok` at the empty map-shaped input. -/
theorem empty_input_ok_witness :
    visit_map (K := Nat) (V := Nat) (E := Nat) none
        (EntryResult.endOfData :: []) = some (Except.ok (SkippableMap.mk [])) ∧
    EntryResult.endOfData ∈ ([EntryResult.endOfData] : List (EntryResult Nat Nat Nat)) :=
  ⟨(empty_input_ok none).1 [],
   (empty_input_ok none).2 [EntryResult.endOfData] (Except.ok (SkippableMap.mk [])) rfl⟩

/-- C6: serializing a `SkippableMap` under the derived transparent
`Serialize` is exactly serializing its bare underlying `HashMap`, for any
serializer into any output representation. -/
theorem serialize_transparent {S : Type} (ser : List (K × V) → S) (m : SkippableMap K V) :
    serializeSkippableMap ser m = ser m.val :=
  rfl

/-- C7: the decode result does not depend on the source's size hint: two
runs over the same outcome sequence with different (or absent) hints return
the same result. -/
theorem sizeHint_independent [DecidableEq K] (h1 h2 : Option Nat)
    (rs : List (EntryResult K V E)) :
    visit_map h1 rs = visit_map h2 rs :=
  rfl

/-- C8, counterexample: the `expecting` description is not the string the
spec quotes — "a structure containing zero or more mappings from {K} to
{V}" — as instantiating both at `K = String`, `V = u64` shows. -/
theorem expecting_string_cex :
    ¬ expecting "String" "u64" =
        "a structure containing zero or more mappings from String to u64" := by
  decide

/-- C8, amended: the `expecting` description is
"a data structure which contains some mappings from {K} to {V}", with the
type names of `K` and `V` substituted in. -/
theorem expecting_exact (kName vName : String) :
    expecting kName vName =
      "a data structure which contains some mappings from " ++ kName ++ " to " ++ vName ∧
    expecting "String" "u64" =
      "a data structure which contains some mappings from String to u64" :=
  ⟨rfl, by decide⟩

/-- C9: `inner` and the `From` conversion both return exactly the
underlying mapping, unmodified and with no error case, and the default
wrapper holds the empty mapping. -/
theorem wrapper_accessors_exact (m : SkippableMap K V) :
    m.inner = m.val ∧ hashMapFromSkippableMap m = m.val ∧
      hashMapFromSkippableMap m = m.inner ∧
      (SkippableMap.default : SkippableMap K V).val = ([] : List (K × V)) :=
  ⟨rfl, rfl, rfl, rfl⟩

/-- C10: the decode loop returns (under some fuel bound) exactly when the
source's outcome sequence contains an end-of-data response; error responses
are not terminal, so a source that answers with errors forever makes
`visit_map` run forever. -/
theorem visit_map_terminates_iff [DecidableEq K] (src : Nat → EntryResult K V E)
    (sizeHint : Option Nat) :
    (∃ fuel r, visitMapFuel src (hashMapWithCapacity (sizeHint.getD 0)) 0 fuel = some r) ↔
      ∃ n, src n = EntryResult.endOfData := by
  constructor
  · rintro ⟨fuel, r, h⟩
    exact visitMapFuel_some_end src fuel 0 _ r h
  · rintro ⟨n, hn⟩
    obtain ⟨r, hr⟩ := visitMapFuel_of_end src n 0 (hashMapWithCapacity (sizeHint.getD 0))
      (by simpa using hn)
    exact ⟨n + 1, r, hr⟩

/-- Witness for `visit_map_terminates_iff`: a source that errors twice and
then signals end-of-data does terminate. -/
theorem visit_map_terminates_iff_witness :
    ∃ fuel r, visitMapFuel (K := Nat) (V := Nat) (E := Nat)
        (fun n => if n = 2 then EntryResult.endOfData else EntryResult.err 0)
        (hashMapWithCapacity ((none : Option Nat).getD 0)) 0 fuel = some r :=
  (visit_map_terminates_iff
      (fun n => if n = 2 then EntryResult.endOfData else EntryResult.err 0) none).mpr
    ⟨2, rfl⟩

end SkippableMapSpec
